import Mathlib

/-!
Shallow embedding of the backup-rat core (src/operation.rs, src/config.rs)
and proofs about its specification.

Modelling conventions, shared by every definition below:

* Filesystem paths are lists of components (`List String`); `PathBuf::join`
  is list append of a singleton, `file_name()` is the last component.
* `SystemTime` modification stamps are naturals; only their order matters.
* The destination filesystem is read through a snapshot
  `dest : List String → Option Nat` giving the modification time of an
  existing path (`File::open` succeeds exactly when the result is `some`).
  Reads performed by a run never observe that run's own writes: every file
  is visited once and distinct source files map to distinct destinations,
  so the initial snapshot is the one each check sees.
* Writes (`copy`, `create_dir`, `create_dir_all`) are assumed to succeed;
  the count returned by the code increments exactly once per successful
  `copy`, so the returned count is the length of the list of performed
  copies.  (The worker model for the threaded path keeps an explicit
  success predicate, because the claim about worker counters is about
  partial success.)
* The `regex` crate is abstracted by an oracle `RegexEng`: `compiles p`
  says `Regex::new(p)` returns `Ok`, and `isMatch p s` says that regex
  matches somewhere in `s`.  All theorems are proved for every oracle.
-/



/-- Oracle abstraction of the `regex` crate used by `ignored`. -/
structure RegexEng where
  compiles : String → Bool
  isMatch : String → String → Bool

/-- Model of `filter.starts_with("r#")`.  The marker is two one-byte
characters, so the byte-prefix test of Rust is exactly a test on the
first two characters. -/
def hasRegexMarker (s : String) : Bool := s.data.take 2 = ['r', '#']

/-- Inner loop of `ignored` over `ignored_files` (operation.rs:38-49): a
filter starting with `"r#"` is compiled and tested against the base name,
a failed compile falls through to the next filter, and a plain filter is
compared for string equality with the base name. -/
def ignoredFilesLoop (re : RegexEng) (name : String) : List String → Bool
  | [] => false
  | filter :: rest =>
    if hasRegexMarker filter then
      if re.compiles (filter.drop 2) then
        if re.isMatch (filter.drop 2) name then true
        else ignoredFilesLoop re name rest
      else ignoredFilesLoop re name rest
    else if name = filter then true
    else ignoredFilesLoop re name rest

/-- Inner loop of `ignored` over `ignored_folders` (operation.rs:51-62),
identical to the file loop but matching against the whole path string. -/
def ignoredFoldersLoop (re : RegexEng) (pathStr : String) : List String → Bool
  | [] => false
  | filter :: rest =>
    if hasRegexMarker filter then
      if re.compiles (filter.drop 2) then
        if re.isMatch (filter.drop 2) pathStr then true
        else ignoredFoldersLoop re pathStr rest
      else ignoredFoldersLoop re pathStr rest
    else if pathStr = filter then true
    else ignoredFoldersLoop re pathStr rest

/-- Rendering of a path the way `path.as_os_str().to_str()` shows it. -/
def pathString (path : List String) : String :=
  String.intercalate "/" path

/-- The ignore check `ignored` (operation.rs:31-65).  `isFile` is
`metadata.is_file()`; files are matched by base name
(`path.file_name()`), everything else by the whole path string. -/
def ignored (re : RegexEng) (path : List String) (isFile : Bool)
    (ignoredFiles ignoredFolders : List String) : Bool :=
  if isFile then ignoredFilesLoop re (path.getLastD "") ignoredFiles
  else ignoredFoldersLoop re (pathString path) ignoredFolders

/-- Per-entry match relation described by the spec for a single pattern:
a `"r#"`-prefixed entry matches when it compiles and its regex matches the
candidate, a compile failure is a non-match, and a plain entry matches by
exact string equality with the candidate. -/
def patternMatches (re : RegexEng) (candidate : String) (filter : String) : Bool :=
  if hasRegexMarker filter then
    re.compiles (filter.drop 2) && re.isMatch (filter.drop 2) candidate
  else candidate = filter

example :
    ignored ⟨fun _ => false, fun _ _ => false⟩ ["a", "x.log"] true ["x.log"] [] = true := by
  decide

example :
    ignored ⟨fun _ => true, fun _ s => s = "x.log"⟩ ["a", "x.log"] true ["r#log$"] [] = true := by
  decide

/-- Semantics of the Rust cast `keep_num as usize` on an `i32` value:
sign extension to 64 bits, i.e. reduction modulo `2^64`.  For the
non-negative values the claims speak about this is just `toNat`. -/
def usizeOfI32 (v : Int) : Nat := (v % (2 : Int) ^ 64).toNat

/-- The scan for the smallest entry inside the `while` loop of
`clear_old` (operation.rs:375-382): `new_min` starts as element `0` and
the loop over `enumerate().skip(1)` replaces it on a strictly smaller
item, so the first index attaining the minimum wins.  `cur`/`cidx` are
the current minimum and its index, `i` the index of the head of the
remaining list. -/
def minFrom (cur : String) (cidx : Nat) (i : Nat) : List String → String × Nat
  | [] => (cur, cidx)
  | x :: rest => if x < cur then minFrom x i (i + 1) rest else minFrom cur cidx (i + 1) rest

/-- The `while dir_names.len() > keep_num` loop of `clear_old`
(operation.rs:374-385).  Returns the names handed to `remove_dir_all`
(in deletion order) and the names still in `dir_names` at the end.
`dir_names.remove(index)` is `eraseIdx` at the index found by the scan;
`remove_dir_all(..).is_ok()` is best effort, so a deletion failure does
not change the loop's control flow and the name still counts as targeted. -/
def clearOldLoop : List String → Nat → List String × List String
  | [], _ => ([], [])
  | x :: xs, keep =>
    if (x :: xs).length > keep then
      let p := minFrom x 0 1 xs
      let q := clearOldLoop ((x :: xs).eraseIdx p.2) keep
      (p.1 :: q.1, q.2)
    else ([], x :: xs)
termination_by names _ => names.length
decreasing_by
  have hidx : ∀ (l : List String) (cur : String) (cidx i : Nat),
      cidx < i → (minFrom cur cidx i l).2 < i + l.length := by
    intro l
    induction l with
    | nil => intro cur cidx i h; simpa [minFrom] using h
    | cons y ys ih =>
      intro cur cidx i h
      by_cases hy : y < cur
      · simpa [minFrom, hy, Nat.add_assoc, Nat.add_comm 1 ys.length] using
          ih y i (i + 1) (Nat.lt_succ_self i)
      · simpa [minFrom, hy, Nat.add_assoc, Nat.add_comm 1 ys.length] using
          ih cur cidx (i + 1) (Nat.lt_succ_of_lt h)
  have h2 := hidx xs x 0 1 Nat.one_pos
  have h3 : (minFrom x 0 1 xs).2 < xs.length + 1 := by omega
  simp only [List.length_eraseIdx, List.length_cons, if_pos h3]
  omega

/-- Read failure of a directory entry: `entry.file_name()` when the
entry was `Ok`, or `none` for an `Err` entry.  Collecting the mapped
iterator (operation.rs:361-369) panics at the first `Err` entry, which
`collectNames` renders as `none`. -/
def collectNames : List (Option String) → Option (List String)
  | [] => some []
  | some n :: rest => (collectNames rest).map (n :: ·)
  | none :: _ => none

/-- The whole of `clear_old` (operation.rs:354-388).  `dirExists` is
`File::open(directory).is_ok()`, `dirIsFile` is `metadata.is_file()`,
`entries` the outcome of reading each directory entry.  The result is
`none` when the function panics (a failed entry read), otherwise
`some (deleted, remaining)`.  A run that deletes nothing returns
`some ([], names)` (and `some ([], [])` on the early `return`s, where
the directory content is never read). -/
def clear_old (dirExists dirIsFile : Bool) (entries : List (Option String))
    (keepNum : Int) : Option (List String × List String) :=
  if dirExists = false then some ([], [])
  else if dirIsFile then some ([], [])
  else
    match collectNames entries with
    | none => none
    | some names =>
      if names.length < 2 then some ([], names)
      else some (clearOldLoop names (usizeOfI32 keepNum))

example : clear_old true false [some "b", some "a", some "c"] 1 =
    some (["a", "b"], ["c"]) := by
  simp +decide [clear_old, clearOldLoop, minFrom, collectNames, usizeOfI32, List.eraseIdx]

/-- A source filesystem tree: a regular file with its modification time,
or a directory with its named children (in `read_dir` order). -/
inductive FsNode where
  | file (mtime : Nat)
  | dir (children : List (String × FsNode))

mutual

/-- Number of nodes of a tree, the termination measure for the explicit
work-list loops below. -/
def FsNode.size : FsNode → Nat
  | .file _ => 1
  | .dir cs => 1 + sizeEntries cs

/-- Total size of a directory's children list. -/
def sizeEntries : List (String × FsNode) → Nat
  | [] => 0
  | c :: rest => FsNode.size c.2 + sizeEntries rest

end

/-- The unimplemented non-local backend variant of `Additional`
(config.rs:50-54). -/
inductive Additional where
  | network (url : String) (password : String)

/-- The `BackupTarget` configuration struct (config.rs:31-48), with paths
as component lists. -/
structure BackupTarget where
  tag : Option String
  path : List String
  ignoreFiles : List String
  ignoreFolders : List String
  targetPath : List String
  optional : Bool
  keepNum : Int
  alwaysCopy : Bool
  additionalOptions : Option Additional

/-- Derivation of the effective `check_timestamp` flag, computed
identically at operation.rs:86-90 and operation.rs:224-228:
`keep_num == 1` enables `!always_copy`, any other `keep_num` disables
timestamp checking. -/
def BackupTarget.checkTimestamp (t : BackupTarget) : Bool :=
  if t.keepNum = 1 then !t.alwaysCopy else false

/-- Everything a traversal consults besides the tree being walked:
regex oracle, the source root path `from`, the ignore lists, the
effective timestamp flag, and the snapshot of the destination
filesystem (modification time of each existing path). -/
structure WalkCtx where
  re : RegexEng
  base : List String
  ignoreFiles : List String
  ignoreFolders : List String
  check : Bool
  dest : List String → Option Nat

/-- Context of a run of either copy routine over `target`. -/
def WalkCtx.ofTarget (re : RegexEng) (t : BackupTarget)
    (dest : List String → Option Nat) : WalkCtx :=
  ⟨re, t.path, t.ignoreFiles, t.ignoreFolders, t.checkTimestamp, dest⟩

/-- File decision of the serial loop body (operation.rs:149-163): skip
when ignored (by absolute path, hence base name); otherwise when
checking timestamps and the destination opens, skip when the source
modification time is strictly below the destination's; otherwise copy. -/
def serialFD (C : WalkCtx) (rel dst : List String) (m : Nat) : Bool :=
  if ignored C.re (C.base ++ rel) true C.ignoreFiles C.ignoreFolders then false
  else if C.check then
    match C.dest dst with
    | some d => if m < d then false else true
    | none => true
  else true

/-- File decision of the threaded producer (operation.rs:319-339): the
ignore test and the timestamp test are both nested inside
`if check_timestamp`, so with `check_timestamp == false` every file is
sent to the workers unconditionally. -/
def parallelFD (C : WalkCtx) (rel dst : List String) (m : Nat) : Bool :=
  if C.check then
    if ignored C.re (C.base ++ rel) true C.ignoreFiles C.ignoreFolders then false
    else
      match C.dest dst with
      | some d => if d > m then false else true
      | none => true
  else true

/-- Directory decision, identical in both loops (operation.rs:166-178 and
operation.rs:295-306): descend unless the path relative to the source
root (`strip_prefix(from)`, which always succeeds in this model) is
ignored as a folder. -/
def dirNotIgnored (C : WalkCtx) (rel : List String) : Bool :=
  !(ignored C.re rel false C.ignoreFiles C.ignoreFolders)

mutual

/-- Canonical recursive form of one traversal rooted at a node sitting at
`rel` below the source root (destination path `dst`): the list of
(source, destination) pairs the traversal copies below that node, for a
given file decision `fd` and directory decision `dd`.  Both work-list
loops are proved equal to it up to permutation. -/
def walk (fd : List String → List String → Nat → Bool) (dd : List String → Bool)
    (base : List String) : List String → FsNode → List String →
      List (List String × List String)
  | rel, .file m, dst => if fd rel dst m then [(base ++ rel, dst)] else []
  | rel, .dir cs, dst => if dd rel then walkList fd dd base rel cs dst else []

/-- Traversal of a children list of a directory at `rel` whose mapped
destination directory is `dst`. -/
def walkList (fd : List String → List String → Nat → Bool) (dd : List String → Bool)
    (base : List String) : List String → List (String × FsNode) → List String →
      List (List String × List String)
  | _, [], _ => []
  | rel, c :: rest, dst =>
    walk fd dd base (rel ++ [c.1]) c.2 (dst ++ [c.1]) ++ walkList fd dd base rel rest dst

end

/-- Entry of the serial `copy_queue` (operation.rs:120): the source path
relative to the root, the node it denotes, and the mapped destination
path (`entry.1`). -/
structure SEntry where
  rel : List String
  node : FsNode
  dst : List String

/-- Children of a serial directory entry as they are pushed at
operation.rs:182-188: source below the directory, destination below
`entry.1`. -/
def mkSChildren (e : SEntry) (cs : List (String × FsNode)) : List SEntry :=
  cs.map (fun c => ⟨e.rel ++ [c.1], c.2, e.dst ++ [c.1]⟩)

/-- Termination measure of the work-list loops: sum of sizes of the
pending nodes. -/
def qMeasureS : List SEntry → Nat
  | [] => 0
  | e :: rest => e.node.size + qMeasureS rest

/-- The serial `while !copy_queue.is_empty()` loop (operation.rs:146-191),
returning the (source, destination) pairs actually copied.  `Vec` pops
from the back and pushes to the back, so the list is used head-as-top:
popping is matching the head, pushing the children in `read_dir` order is
prepending them reversed.  Directory creation (operation.rs:179-181) and
per-file `copy` are assumed to succeed, so the returned count of the code
is the length of this list. -/
def serialLoop (C : WalkCtx) : List SEntry → List (List String × List String)
  | [] => []
  | ⟨rel, .file m, dst⟩ :: rest =>
    if serialFD C rel dst m then (C.base ++ rel, dst) :: serialLoop C rest
    else serialLoop C rest
  | ⟨rel, .dir cs, dst⟩ :: rest =>
    if dirNotIgnored C rel then
      serialLoop C ((mkSChildren ⟨rel, .dir cs, dst⟩ cs).reverse ++ rest)
    else serialLoop C rest
termination_by q => qMeasureS q
decreasing_by
all_goals {
  have happ : ∀ (a b : List SEntry), qMeasureS (a ++ b) = qMeasureS a + qMeasureS b := by
    intro a b
    induction a with
    | nil => simp [qMeasureS]
    | cons x xs ih => simp [qMeasureS, ih]; omega
  have hrev : ∀ (a : List SEntry), qMeasureS a.reverse = qMeasureS a := by
    intro a
    induction a with
    | nil => rfl
    | cons x xs ih => simp [qMeasureS, happ, ih]; omega
  have hch : ∀ (e : SEntry) (cs : List (String × FsNode)),
      qMeasureS (mkSChildren e cs) = sizeEntries cs := by
    intro e cs
    induction cs with
    | nil => rfl
    | cons c cr ih => simp [qMeasureS, mkSChildren, sizeEntries] at ih ⊢; omega
  first
    | (rw [happ, hrev, hch]; simp [qMeasureS, FsNode.size]; done)
    | (rw [happ, hrev, hch]; simp [qMeasureS, FsNode.size]; omega)
    | (simp [qMeasureS, FsNode.size]; done)
    | (simp [qMeasureS, FsNode.size]; omega)
}

/-- Entry of the threaded producer's `read_files` work list
(operation.rs:265): source path relative to the root, its node, and the
`file_parent` destination directory. -/
structure PEntry where
  rel : List String
  node : FsNode
  parent : List String

/-- Children of a threaded directory entry as pushed at
operation.rs:307-318: the new `file_parent` is
`file_parent.join(file_path.file_name())`. -/
def mkPChildren (e : PEntry) (cs : List (String × FsNode)) : List PEntry :=
  cs.map (fun c => ⟨e.rel ++ [c.1], c.2, e.parent ++ [e.rel.getLastD ""]⟩)

/-- Measure of the threaded work list. -/
def qMeasureP : List PEntry → Nat
  | [] => 0
  | e :: rest => e.node.size + qMeasureP rest

/-- The threaded producer's `while !read_files.is_empty()` loop
(operation.rs:290-341), returning the (source, destination) pairs sent to
the workers as `Command::Copy`; with every `create_dir_all`/`copy`
succeeding those are exactly the pairs copied. -/
def parallelLoop (C : WalkCtx) : List PEntry → List (List String × List String)
  | [] => []
  | ⟨rel, .file m, parent⟩ :: rest =>
    if parallelFD C rel (parent ++ [rel.getLastD ""]) m then
      (C.base ++ rel, parent ++ [rel.getLastD ""]) :: parallelLoop C rest
    else parallelLoop C rest
  | ⟨rel, .dir cs, parent⟩ :: rest =>
    if dirNotIgnored C rel then
      parallelLoop C ((mkPChildren ⟨rel, .dir cs, parent⟩ cs).reverse ++ rest)
    else parallelLoop C rest
termination_by q => qMeasureP q
decreasing_by
all_goals {
  have happ : ∀ (a b : List PEntry), qMeasureP (a ++ b) = qMeasureP a + qMeasureP b := by
    intro a b
    induction a with
    | nil => simp [qMeasureP]
    | cons x xs ih => simp [qMeasureP, ih]; omega
  have hrev : ∀ (a : List PEntry), qMeasureP a.reverse = qMeasureP a := by
    intro a
    induction a with
    | nil => rfl
    | cons x xs ih => simp [qMeasureP, happ, ih]; omega
  have hch : ∀ (e : PEntry) (cs : List (String × FsNode)),
      qMeasureP (mkPChildren e cs) = sizeEntries cs := by
    intro e cs
    induction cs with
    | nil => rfl
    | cons c cr ih => simp [qMeasureP, mkPChildren, sizeEntries] at ih ⊢; omega
  first
    | (rw [happ, hrev, hch]; simp [qMeasureP, FsNode.size]; done)
    | (rw [happ, hrev, hch]; simp [qMeasureP, FsNode.size]; omega)
    | (simp [qMeasureP, FsNode.size]; done)
    | (simp [qMeasureP, FsNode.size]; omega)
}

/-- Base destination directory of a directory-source run: a
`keep_num == 1` run maps the tree below `to/from_name`, any other
`keep_num` below `to/from_name/now` (operation.rs:124-135 and
operation.rs:271-282).  `now` is the timestamp string the run computed
once on entry (operation.rs:83), a parameter of the model. -/
def destBaseOf (t : BackupTarget) (now : String) : List String :=
  if t.keepNum = 1 then t.targetPath ++ [t.path.getLastD ""]
  else t.targetPath ++ [t.path.getLastD "", now]

/-- The (source, destination) pairs copied by the serial `copy_to`
(operation.rs:82-195).  A file source is checked against the ignore list
and then, under `check_timestamp`, against the destination's
modification time (operation.rs:96-116); a directory source seeds the
work list with its children (in `read_dir` order, so reversed for the
head-as-top list) and runs the work-list loop. -/
def copy_to_pairs (re : RegexEng) (t : BackupTarget) (now : String) (src : FsNode)
    (dest : List String → Option Nat) : List (List String × List String) :=
  match src with
  | .file m =>
    match t.path.getLast? with
    | none => []
    | some name =>
      if ignored re t.path true t.ignoreFiles t.ignoreFolders then []
      else
        match dest (t.targetPath ++ [name]) with
        | some d =>
          if t.checkTimestamp ∧ m < d then []
          else [(t.path, t.targetPath ++ [name])]
        | none => [(t.path, t.targetPath ++ [name])]
  | .dir cs =>
    serialLoop (WalkCtx.ofTarget re t dest)
      ((mkSChildren ⟨[], src, destBaseOf t now⟩ cs).reverse)

/-- The `i32` count returned by `copy_to`: one per performed copy. -/
def copy_to (re : RegexEng) (t : BackupTarget) (now : String) (src : FsNode)
    (dest : List String → Option Nat) : Int :=
  (copy_to_pairs re t now src dest).length

/-- Observable filesystem actions of a run, in program order: a file
copy, or the retention pass `clear_old` over a snapshot root. -/
inductive Event where
  | copied (src dst : List String)
  | pruned (dir : List String) (keepNum : Int)
deriving DecidableEq

/-- Error kinds a run can surface.  `notFound` is
`ErrorKind::NotFound` (« The destination is unavailable! »);
`unsupported` is the error value the spec asks the unimplemented
network backend to return. -/
inductive ErrKind where
  | notFound
  | unsupported
deriving DecidableEq

/-- Event trace of the serial `copy_to`, in program order: for a
directory source with `keep_num > 1` the new snapshot directory is
created and `clear_old` runs (operation.rs:141-144) before the copy
loop (operation.rs:146-191); with `keep_num == 1` there is no prune.
A file source never prunes. -/
def copy_to_events (re : RegexEng) (t : BackupTarget) (now : String) (src : FsNode)
    (dest : List String → Option Nat) : List Event :=
  match src with
  | .file _ => (copy_to_pairs re t now src dest).map (fun p => .copied p.1 p.2)
  | .dir _ =>
    (if t.keepNum > 1 then
      [Event.pruned (t.targetPath ++ [t.path.getLastD ""]) t.keepNum]
    else [])
    ++ (copy_to_pairs re t now src dest).map (fun p => .copied p.1 p.2)

/-- The (source, destination) pairs of the `Command::Copy` commands the
threaded producer sends (operation.rs:220-341); with every worker-side
`create_dir_all` and `copy` succeeding these are exactly the pairs the
workers copy.  A file source is copied synchronously with no check at
all (operation.rs:231-236); a directory source requires the destination
root to open (operation.rs:238-243) and then runs the producer loop over
the root's children. -/
def threaded_pairs (re : RegexEng) (t : BackupTarget) (now : String) (src : FsNode)
    (dest : List String → Option Nat) : List (List String × List String) :=
  match src with
  | .file _ => [(t.path, t.targetPath ++ [t.path.getLastD ""])]
  | .dir cs =>
    if (dest t.targetPath).isNone then []
    else
      parallelLoop (WalkCtx.ofTarget re t dest)
        ((cs.map (fun c => PEntry.mk [c.1] c.2 (destBaseOf t now))).reverse)

/-- Event trace of `threaded_copy_to`: a lone file is copied at once
(operation.rs:231-236); for a directory source a missing destination
root is a `NotFound` error (operation.rs:238-243), and otherwise with
`keep_num > 1` the snapshot directory is created and `clear_old` runs
(operation.rs:284-287) before any `Command::Copy` is sent
(operation.rs:290-341). -/
def threaded_copy_to (re : RegexEng) (t : BackupTarget) (now : String) (src : FsNode)
    (dest : List String → Option Nat) : Except ErrKind (List Event) :=
  match src with
  | .file _ => .ok ((threaded_pairs re t now src dest).map (fun p => .copied p.1 p.2))
  | .dir _ =>
    if (dest t.targetPath).isNone then .error .notFound
    else
      .ok ((if t.keepNum > 1 then
          [Event.pruned (t.targetPath ++ [t.path.getLastD ""]) t.keepNum]
        else [])
        ++ (threaded_pairs re t now src dest).map (fun p => .copied p.1 p.2))

/-- The two kinds of commands travelling through the shared channel
(operation.rs:197-200). -/
inductive Command where
  | terminate
  | copy (src dst : List String)
deriving DecidableEq

/-- Predicate form of `Command.terminate` for counting. -/
def Command.isTerminate : Command → Bool
  | .terminate => true
  | .copy _ _ => false

/-- The full command sequence the producer pushes through the channel in
a directory-source run: every eligible `Command::Copy` from the
traversal (operation.rs:290-341), followed by one `Command::Terminate`
per spawned worker, i.e. `num_threads - 1` of them (operation.rs:343-345,
mirroring the spawn loop `for _ in 1..num_threads`, operation.rs:248). -/
def threaded_commands (re : RegexEng) (t : BackupTarget) (now : String) (src : FsNode)
    (dest : List String → Option Nat) (numThreads : Int) : List Command :=
  match src with
  | .file _ => []
  | .dir _ =>
    if (dest t.targetPath).isNone then []
    else
      (threaded_pairs re t now src dest).map (fun p => Command.copy p.1 p.2)
      ++ List.replicate (numThreads - 1).toNat Command.terminate

/-- One worker's loop (operation.rs:250-263) over the sequence of
commands it happens to receive: stop at `Terminate` and return the local
counter; on `Copy` increment the counter exactly when both
`create_dir_all` and `copy` succeed, abstracted by `ok`. -/
def workerLoop (ok : List String → List String → Bool) : List Command → Nat
  | [] => 0
  | .terminate :: _ => 0
  | .copy s d :: rest => (if ok s d then 1 else 0) + workerLoop ok rest

/-- The join loop `for handle in threads { num += handle.join() }`
(operation.rs:347-349): the producer's `num` starts at `0`
(operation.rs:247) and only accumulates worker results. -/
def joinSum (counts : List Nat) : Nat := counts.foldl (fun n c => n + c) 0

/-- Success of a `Copy` command under the worker success oracle. -/
def okCommand (ok : List String → List String → Bool) : Command → Bool
  | .terminate => false
  | .copy s d => ok s d

/-- The copied pairs recorded in an event trace. -/
def copiedPairs (evs : List Event) : List (List String × List String) :=
  evs.filterMap (fun e =>
    match e with
    | .copied a b => some (a, b)
    | .pruned _ _ => none)

/-- Entry point `copy_to_target` (operation.rs:406-420): verify the
destination root opens, then dispatch on the thread count.  The result
pairs the event trace actually performed with the `Result` value
returned; the failed root check performs nothing and returns the
`NotFound` error. -/
def copy_to_target (re : RegexEng) (t : BackupTarget) (now : String) (src : FsNode)
    (dest : List String → Option Nat) (threads : Int) : List Event × Except ErrKind Int :=
  if (dest t.targetPath).isNone then ([], .error .notFound)
  else if threads > 1 then
    match threaded_copy_to re t now src dest with
    | .error k => ([], .error k)
    | .ok evs => (evs, .ok ((copiedPairs evs).length : Int))
  else (copy_to_events re t now src dest, .ok (copy_to re t now src dest))

/-- Outcome of `BackupTarget::backup` as observed by its caller: a
returned count, a returned error value, or a panic unwinding out of the
call (`unimplemented!` aborts the run instead of returning). -/
inductive RunOutcome where
  | ok (n : Int)
  | err (k : ErrKind)
  | panicked (msg : String)
deriving DecidableEq

/-- `BackupTarget::backup` (config.rs:59-69): a target whose
`additional_options` selected the network backend hits
`unimplemented!()`, which panics with « not implemented »; otherwise the
local copy runs and its outcome (abstracted as `localOutcome`) is
returned. -/
def BackupTarget.backup (t : BackupTarget) (localOutcome : RunOutcome) : RunOutcome :=
  match t.additionalOptions with
  | some (.network _ _) => .panicked "not implemented"
  | none => localOutcome

/-- Per-entry expansion of a serial work-list entry: what the rest of
the run will copy below it. -/
def sExpand (fd : List String → List String → Nat → Bool) (dd : List String → Bool)
    (base : List String) (e : SEntry) : List (List String × List String) :=
  walk fd dd base e.rel e.node e.dst

/-- Per-entry expansion of a threaded work-list entry; the destination
path of the node itself is `file_parent.join(file_name)`. -/
def pExpand (fd : List String → List String → Nat → Bool) (dd : List String → Bool)
    (base : List String) (e : PEntry) : List (List String × List String) :=
  walk fd dd base e.rel e.node (e.parent ++ [e.rel.getLastD ""])

/-- Oracle for runs whose ignore lists hold no regex patterns. -/
def reNone : RegexEng := ⟨fun _ => false, fun _ _ => false⟩

/-- A single-file target with timestamp checking in effect
(`keep_num = 1`, `always_copy = false`). -/
def tC1 : BackupTarget :=
  ⟨none, ["a", "f.txt"], [], [], ["b"], false, 1, false, none⟩

/-- Destination with `b/f.txt` present at modification time 5, equal to
the source's. -/
def destC1 : List String → Option Nat :=
  fun p => if p = ["b", "f.txt"] then some 5 else none

/-- Destination with `b/f.txt` present at modification time 3. -/
def destC1w : List String → Option Nat :=
  fun p => if p = ["b", "f.txt"] then some 3 else none

/-- A target whose ignore list names `secret.txt` but which runs with
`always_copy = true` (so timestamp checking is off). -/
def tC2 : BackupTarget :=
  ⟨none, ["a"], ["secret.txt"], [], ["b"], false, 1, true, none⟩

/-- Source directory `a` containing only `secret.txt`. -/
def srcC2 : FsNode := .dir [("secret.txt", .file 5)]

/-- Destination filesystem: the root `b` exists, nothing else. -/
def destC2 : List String → Option Nat := fun p => if p = ["b"] then some 0 else none

/-- Recogniser for prune events. -/
def Event.isPruned : Event → Bool
  | .pruned _ _ => true
  | .copied _ _ => false

/-- Recogniser for copy events. -/
def Event.isCopied : Event → Bool
  | .copied _ _ => true
  | .pruned _ _ => false

/-- Every prune event of a trace strictly precedes every copy event. -/
def prunesBeforeCopies (evs : List Event) : Prop :=
  ∀ (i j : Nat) (hi : i < evs.length) (hj : j < evs.length),
    (evs.get ⟨i, hi⟩).isPruned = true → (evs.get ⟨j, hj⟩).isCopied = true → i < j

/-- The network target of the repository's own config test
(config.rs:158-172). -/
def tC9 : BackupTarget :=
  ⟨some "target1", ["etc"], [], [], ["mnt", "backup"], false, 1, false,
    some (.network "www.test.com" "test")⟩

/-- A directory-source target with retention enabled (`keep_num = 2`). -/
def tC6 : BackupTarget :=
  ⟨none, ["a"], [], [], ["b"], false, 2, false, none⟩

/-- Source directory `a` with a single file. -/
def srcC6 : FsNode := .dir [("f.txt", .file 5)]

/-- A target with `always_copy = true` whose ignore list names
`skip.log`. -/
def tC5 : BackupTarget :=
  ⟨none, ["a"], ["skip.log"], [], ["b"], false, 1, true, none⟩

/-- Source directory `a` containing only `skip.log`. -/
def srcC5 : FsNode := .dir [("skip.log", .file 4)]

/-- Destination filesystem for the C5 counterexample: only the root `b`
exists. -/
def destC5 : List String → Option Nat := fun p => if p = ["b"] then some 0 else none

/-- A directory-source target with timestamp checking in effect. -/
def tC5w : BackupTarget :=
  ⟨none, ["a"], [], [], ["b"], false, 1, false, none⟩

/-- A two-file directory target running with `always_copy = true`. -/
def tC4 : BackupTarget :=
  ⟨none, ["a"], [], [], ["b"], false, 1, true, none⟩

/-- Source directory `a` with files `x.txt` and `y.txt`. -/
def srcC4 : FsNode := .dir [("x.txt", .file 1), ("y.txt", .file 2)]

theorem flatten_map_sExpand (fd : List String → List String → Nat → Bool)
    (dd : List String → Bool) (base : List String) :
    ∀ (cs : List (String × FsNode)) (rel dst : List String) (n : FsNode),
      ((mkSChildren ⟨rel, n, dst⟩ cs).map (sExpand fd dd base)).flatten
        = walkList fd dd base rel cs dst := by
  intro cs
  induction cs with
  | nil => intro rel dst n; simp [mkSChildren, walkList]
  | cons c cr ih =>
    intro rel dst n
    simp only [mkSChildren, List.map_cons, List.flatten_cons, walkList, sExpand] at ih ⊢
    rw [← ih rel dst n]

theorem flatten_map_pExpand (fd : List String → List String → Nat → Bool)
    (dd : List String → Bool) (base : List String) :
    ∀ (cs : List (String × FsNode)) (rel parent : List String) (n : FsNode),
      ((mkPChildren ⟨rel, n, parent⟩ cs).map (pExpand fd dd base)).flatten
        = walkList fd dd base rel cs (parent ++ [rel.getLastD ""]) := by
  intro cs
  induction cs with
  | nil => intro rel parent n; simp [mkPChildren, walkList]
  | cons c cr ih =>
    intro rel parent n
    simp only [mkPChildren, List.map_cons, List.flatten_cons, walkList, pExpand] at ih ⊢
    rw [← ih rel parent n]
    try simp [mkPChildren, List.getLastD_concat]

theorem serialLoop_perm (C : WalkCtx) (q : List SEntry) :
    List.Perm (serialLoop C q)
      ((q.map (sExpand (serialFD C) (dirNotIgnored C) C.base)).flatten) := by
  induction q using serialLoop.induct C with
  | case1 => simp [serialLoop]
  | case2 rel m dst rest h ih =>
    simp only [serialLoop, h, if_true, List.map_cons, List.flatten_cons, sExpand, walk]
    exact ih.cons _
  | case3 rel m dst rest h ih =>
    simp only [serialLoop, h, if_false, List.map_cons, List.flatten_cons, sExpand, walk,
      Bool.false_eq_true, List.nil_append]
    exact ih
  | case4 rel cs dst rest h ih =>
    simp only [serialLoop, h, if_true, List.map_cons, List.flatten_cons, sExpand, walk]
    refine ih.trans ?_
    rw [List.map_append, List.flatten_append, List.map_reverse]
    exact ((List.reverse_perm _).flatten.append_right _).trans
      (by rw [flatten_map_sExpand])
  | case5 rel cs dst rest h ih =>
    simp only [serialLoop, h, List.map_cons, List.flatten_cons, sExpand, walk,
      Bool.false_eq_true, if_false, List.nil_append]
    exact ih

theorem parallelLoop_perm (C : WalkCtx) (q : List PEntry) :
    List.Perm (parallelLoop C q)
      ((q.map (pExpand (parallelFD C) (dirNotIgnored C) C.base)).flatten) := by
  induction q using parallelLoop.induct C with
  | case1 => simp [parallelLoop]
  | case2 rel m parent rest h ih =>
    simp only [parallelLoop, h, if_true, List.map_cons, List.flatten_cons, pExpand, walk]
    exact ih.cons _
  | case3 rel m parent rest h ih =>
    simp only [parallelLoop, h, if_false, List.map_cons, List.flatten_cons, pExpand, walk,
      Bool.false_eq_true, List.nil_append]
    exact ih
  | case4 rel cs parent rest h ih =>
    simp only [parallelLoop, h, if_true, List.map_cons, List.flatten_cons, pExpand, walk]
    refine ih.trans ?_
    rw [List.map_append, List.flatten_append, List.map_reverse]
    exact ((List.reverse_perm _).flatten.append_right _).trans
      (by rw [flatten_map_pExpand])
  | case5 rel cs parent rest h ih =>
    simp only [parallelLoop, h, List.map_cons, List.flatten_cons, pExpand, walk,
      Bool.false_eq_true, if_false, List.nil_append]
    exact ih

theorem flatten_map_pExpand_top (fd : List String → List String → Nat → Bool)
    (dd : List String → Bool) (base : List String) :
    ∀ (cs : List (String × FsNode)) (destBase : List String),
      ((cs.map (fun c => PEntry.mk [c.1] c.2 destBase)).map (pExpand fd dd base)).flatten
        = walkList fd dd base [] cs destBase := by
  intro cs
  induction cs with
  | nil => intro destBase; simp [walkList]
  | cons c cr ih =>
    intro destBase
    simp only [List.map_cons, List.flatten_cons, walkList, pExpand, List.nil_append,
      List.getLastD_cons, List.getLastD_nil] at ih ⊢
    rw [ih]

theorem copy_to_pairs_dir_perm (re : RegexEng) (t : BackupTarget) (now : String)
    (dest : List String → Option Nat) (cs : List (String × FsNode)) :
    List.Perm (copy_to_pairs re t now (.dir cs) dest)
      (walkList (serialFD (WalkCtx.ofTarget re t dest))
        (dirNotIgnored (WalkCtx.ofTarget re t dest)) (WalkCtx.ofTarget re t dest).base
        [] cs (destBaseOf t now)) := by
  refine (serialLoop_perm _ _).trans ?_
  rw [List.map_reverse]
  exact ((List.reverse_perm _).flatten).trans (by rw [flatten_map_sExpand])

theorem threaded_pairs_dir_perm (re : RegexEng) (t : BackupTarget) (now : String)
    (dest : List String → Option Nat) (cs : List (String × FsNode))
    (h : (dest t.targetPath).isSome) :
    List.Perm (threaded_pairs re t now (.dir cs) dest)
      (walkList (parallelFD (WalkCtx.ofTarget re t dest))
        (dirNotIgnored (WalkCtx.ofTarget re t dest)) (WalkCtx.ofTarget re t dest).base
        [] cs (destBaseOf t now)) := by
  have hroot : (dest t.targetPath).isNone = false := by
    cases hd : dest t.targetPath with
    | none => rw [hd] at h; simp at h
    | some _ => simp
  simp only [threaded_pairs, hroot, Bool.false_eq_true, if_false]
  refine (parallelLoop_perm _ _).trans ?_
  rw [List.map_reverse]
  exact ((List.reverse_perm _).flatten).trans (by rw [flatten_map_pExpand_top])

theorem ignoredFilesLoop_eq_any (re : RegexEng) (name : String) :
    ∀ l : List String, ignoredFilesLoop re name l = l.any (patternMatches re name) := by
  intro l
  induction l with
  | nil => rfl
  | cons filter rest ih =>
    simp only [ignoredFilesLoop, List.any_cons, patternMatches, ← ih]
    by_cases h1 : hasRegexMarker filter
    · by_cases h2 : re.compiles (filter.drop 2)
      · by_cases h3 : re.isMatch (filter.drop 2) name <;> simp [h1, h2, h3]
      · simp [h1, h2]
    · by_cases h4 : name = filter <;> simp [h1, h4]

theorem ignoredFoldersLoop_eq_any (re : RegexEng) (pathStr : String) :
    ∀ l : List String, ignoredFoldersLoop re pathStr l = l.any (patternMatches re pathStr) := by
  intro l
  induction l with
  | nil => rfl
  | cons filter rest ih =>
    simp only [ignoredFoldersLoop, List.any_cons, patternMatches, ← ih]
    by_cases h1 : hasRegexMarker filter
    · by_cases h2 : re.compiles (filter.drop 2)
      · by_cases h3 : re.isMatch (filter.drop 2) pathStr <;> simp [h1, h2, h3]
      · simp [h1, h2]
    · by_cases h4 : pathStr = filter <;> simp [h1, h4]

/-- C8: for every path, file/directory flag, regex oracle and pattern
lists, `ignored` returns true iff some entry of the applicable list
matches the candidate (base name for files, path string for
directories): a `"r#"`-prefixed entry matches when it compiles and its
regex matches, a compile failure is a non-match for that entry alone,
and a plain entry matches only by exact equality; the result is the
logical OR (`List.any`) over all entries. -/
theorem c8_ignored_iff_any_pattern (re : RegexEng) (path : List String) (isFile : Bool)
    (ignoredFiles ignoredFolders : List String) :
    ignored re path isFile ignoredFiles ignoredFolders =
      (if isFile then ignoredFiles.any (patternMatches re (path.getLastD ""))
       else ignoredFolders.any (patternMatches re (pathString path))) := by
  cases isFile <;>
    simp [ignored, ignoredFilesLoop_eq_any, ignoredFoldersLoop_eq_any]

/-- C1, counterexample: with timestamp checking in effect and the
destination already existing, a source whose modification time ties the
destination's (both 5) IS copied and contributes 1 to the returned
count; the claim demands no copy and a zero contribution on a tie.  The
skip test of operation.rs:107-112 and operation.rs:153-161 only fires
when the source is strictly older. -/
theorem c1_counterexample :
    copy_to_pairs reNone tC1 "T" (.file 5) destC1 = [(["a", "f.txt"], ["b", "f.txt"])]
    ∧ copy_to reNone tC1 "T" (.file 5) destC1 = 1
    ∧ destC1 ["b", "f.txt"] = some 5
    ∧ tC1.keepNum = 1 ∧ tC1.alwaysCopy = false := by
  refine ⟨by decide, by decide, by decide, rfl, rfl⟩

/-- C1, amended: for a file job whose destination exists and with
timestamp checking in effect (`keep_count == 1 && !always_copy`), the
file is copied iff the source's last-modified time is greater than or
equal to the destination's; only a strictly older source yields no copy
and contributes zero to the returned count.  Stated for the single-file
source of `copy_to` and, in the last conjunct, for the per-file decision
of the serial directory loop. -/
theorem c1_amended_copy_iff_not_older (re : RegexEng) (t : BackupTarget) (now : String)
    (m d : Nat) (name : String) (dest : List String → Option Nat)
    (hk : t.keepNum = 1) (ha : t.alwaysCopy = false)
    (hname : t.path.getLast? = some name)
    (hdest : dest (t.targetPath ++ [name]) = some d)
    (hign : ignored re t.path true t.ignoreFiles t.ignoreFolders = false) :
    (copy_to_pairs re t now (.file m) dest
        = if d ≤ m then [(t.path, t.targetPath ++ [name])] else [])
    ∧ (copy_to re t now (.file m) dest = if d ≤ m then 1 else 0)
    ∧ ∀ (C : WalkCtx) (rel dst : List String) (m2 d2 : Nat),
        C.check = true →
        ignored C.re (C.base ++ rel) true C.ignoreFiles C.ignoreFolders = false →
        C.dest dst = some d2 →
        (serialFD C rel dst m2 = true ↔ d2 ≤ m2) := by
  have hct : t.checkTimestamp = true := by
    simp [BackupTarget.checkTimestamp, hk, ha]
  have hpairs : copy_to_pairs re t now (.file m) dest
      = if d ≤ m then [(t.path, t.targetPath ++ [name])] else [] := by
    simp only [copy_to_pairs, hname, hign, hdest, Bool.false_eq_true, if_false, hct]
    by_cases hdm : d ≤ m
    · have : ¬ (True ∧ m < d) := by simp; omega
      simp [hdm, this]
    · have : m < d := by omega
      simp [hdm, this]
  refine ⟨hpairs, ?_, ?_⟩
  · simp only [copy_to, hpairs]
    by_cases hdm : d ≤ m <;> simp [hdm]
  · intro C rel dst m2 d2 hc hig hd
    simp only [serialFD, hig, Bool.false_eq_true, if_false, hc, if_true, hd]
    constructor
    · intro h
      by_contra hlt
      simp [show m2 < d2 by omega] at h
    · intro h
      simp [show ¬ m2 < d2 by omega]

/-- C1, witness: at source time 7 against destination time 3 the amended
theorem applies and the file is copied with count 1. -/
theorem c1_witness :
    (copy_to_pairs reNone tC1 "T" (.file 7) destC1w
        = if 3 ≤ 7 then [(tC1.path, tC1.targetPath ++ ["f.txt"])] else [])
    ∧ (copy_to reNone tC1 "T" (.file 7) destC1w = if 3 ≤ 7 then 1 else 0)
    ∧ ∀ (C : WalkCtx) (rel dst : List String) (m2 d2 : Nat),
        C.check = true →
        ignored C.re (C.base ++ rel) true C.ignoreFiles C.ignoreFolders = false →
        C.dest dst = some d2 →
        (serialFD C rel dst m2 = true ↔ d2 ≤ m2) :=
  c1_amended_copy_iff_not_older reNone tC1 "T" 7 3 "f.txt" destC1w rfl rfl (by decide)
    (by decide) (by decide)

/-- C2: evaluation at the failing input.  The file `secret.txt`, whose
base name exactly equals a plain entry of `ignore_file_patterns`, is
sent as a `Command::Copy` and copied by the parallel path when
`always_copy = true`, because operation.rs:320-331 consults `ignored`
only inside the `if check_timestamp` branch; the serial path
(operation.rs:149-152) consults it unconditionally and copies nothing.
The claim (and the spec's invariant) says the file is never copied in
either mode. -/
theorem c2_parallel_copies_ignored_file :
    threaded_pairs reNone tC2 "T" srcC2 destC2
      = [(["a", "secret.txt"], ["b", "a", "secret.txt"])]
    ∧ copy_to_pairs reNone tC2 "T" srcC2 destC2 = []
    ∧ ignored reNone ["a", "secret.txt"] true tC2.ignoreFiles tC2.ignoreFolders = true := by
  refine ⟨?_, ?_, by decide⟩
  · simp +decide [threaded_pairs, parallelLoop, mkPChildren, destBaseOf, tC2, srcC2, destC2,
      WalkCtx.ofTarget, parallelFD, dirNotIgnored, ignored, ignoredFilesLoop,
      ignoredFoldersLoop, hasRegexMarker, BackupTarget.checkTimestamp, reNone]
  · simp +decide [copy_to_pairs, serialLoop, mkSChildren, destBaseOf, tC2, srcC2, destC2,
      WalkCtx.ofTarget, serialFD, dirNotIgnored, ignored, ignoredFilesLoop,
      ignoredFoldersLoop, hasRegexMarker, BackupTarget.checkTimestamp, reNone]

theorem minFrom_spec :
    ∀ (l pre : List String) (cur : String) (cidx : Nat),
      cidx < pre.length → pre[cidx]? = some cur → (∀ y ∈ pre, cur ≤ y) →
      (minFrom cur cidx pre.length l).2 < pre.length + l.length
      ∧ (pre ++ l)[(minFrom cur cidx pre.length l).2]? = some (minFrom cur cidx pre.length l).1
      ∧ ∀ y ∈ pre ++ l, (minFrom cur cidx pre.length l).1 ≤ y := by
  intro l
  induction l with
  | nil =>
    intro pre cur cidx h1 h2 h3
    exact ⟨by simpa [minFrom] using h1, by simpa [minFrom] using h2,
      by simpa [minFrom] using h3⟩
  | cons x rest ih =>
    intro pre cur cidx h1 h2 h3
    by_cases hx : x < cur
    · have hmin : ∀ y ∈ pre ++ [x], x ≤ y := by
        intro y hy
        rcases List.mem_append.1 hy with hy | hy
        · exact hx.le.trans (h3 y hy)
        · simp only [List.mem_singleton] at hy
          exact le_of_eq hy.symm
      have h := ih (pre ++ [x]) x pre.length
        (by simp) (List.getElem?_concat_length pre x) hmin
      simp only [List.length_append, List.length_singleton, List.append_assoc,
        List.singleton_append, List.length_cons] at h ⊢
      simpa [minFrom, hx, Nat.add_assoc, Nat.add_comm 1 rest.length] using h
    · have hcx : cur ≤ x := le_of_not_lt hx
      have hmin : ∀ y ∈ pre ++ [x], cur ≤ y := by
        intro y hy
        rcases List.mem_append.1 hy with hy | hy
        · exact h3 y hy
        · simp only [List.mem_singleton] at hy
          exact hy ▸ hcx
      have h := ih (pre ++ [x]) cur cidx
        (by simp; omega) (by rw [List.getElem?_append_left h1]; exact h2) hmin
      simp only [List.length_append, List.length_singleton, List.append_assoc,
        List.singleton_append, List.length_cons] at h ⊢
      simpa [minFrom, hx, Nat.add_assoc, Nat.add_comm 1 rest.length] using h

theorem minFrom_head_spec (x : String) (xs : List String) :
    (minFrom x 0 1 xs).2 < (x :: xs).length
    ∧ (x :: xs)[(minFrom x 0 1 xs).2]? = some (minFrom x 0 1 xs).1
    ∧ ∀ y ∈ x :: xs, (minFrom x 0 1 xs).1 ≤ y := by
  have h := minFrom_spec xs [x] x 0 (by simp) (by simp) (by simp)
  simpa [Nat.add_comm 1 xs.length] using h

theorem perm_cons_eraseIdx_getElem {α : Type} (l : List α) (i : Nat) (m : α)
    (h : l[i]? = some m) : List.Perm (m :: l.eraseIdx i) l := by
  obtain ⟨hi, hget⟩ := List.getElem?_eq_some_iff.1 h
  rw [List.eraseIdx_eq_take_drop_succ]
  refine List.perm_middle.symm.trans ?_
  have hd : m :: List.drop (i + 1) l = List.drop i l := by
    rw [← hget]
    exact List.getElem_cons_drop l i hi
  rw [hd, List.take_append_drop]

theorem clearOldLoop_spec (names : List String) (keep : Nat) (hnd : names.Nodup) :
    (clearOldLoop names keep).1.length = names.length - keep
    ∧ List.Perm ((clearOldLoop names keep).1 ++ (clearOldLoop names keep).2) names
    ∧ ∀ x ∈ (clearOldLoop names keep).1, ∀ y ∈ (clearOldLoop names keep).2, x < y := by
  induction names, keep using clearOldLoop.induct with
  | case1 keep => simp [clearOldLoop]
  | case2 x xs keep h p q =>
    obtain ⟨hlt, hget, hmin⟩ := minFrom_head_spec x xs
    have hperm : List.Perm ((minFrom x 0 1 xs).1 :: (x :: xs).eraseIdx (minFrom x 0 1 xs).2)
        (x :: xs) := perm_cons_eraseIdx_getElem _ _ _ hget
    have hnodup2 : ((minFrom x 0 1 xs).1 :: (x :: xs).eraseIdx (minFrom x 0 1 xs).2).Nodup :=
      hperm.nodup_iff.2 hnd
    have hnd' : ((x :: xs).eraseIdx (minFrom x 0 1 xs).2).Nodup := (List.nodup_cons.1 hnodup2).2
    have hmnot : (minFrom x 0 1 xs).1 ∉ (x :: xs).eraseIdx (minFrom x 0 1 xs).2 :=
      (List.nodup_cons.1 hnodup2).1
    obtain ⟨ih1, ih2, ih3⟩ := q hnd'
    have hlen : ((x :: xs).eraseIdx (minFrom x 0 1 xs).2).length = xs.length := by
      have := hperm.length_eq
      simp at this
      omega
    have hres : clearOldLoop (x :: xs) keep
        = ((minFrom x 0 1 xs).1 :: (clearOldLoop ((x :: xs).eraseIdx (minFrom x 0 1 xs).2) keep).1,
           (clearOldLoop ((x :: xs).eraseIdx (minFrom x 0 1 xs).2) keep).2) := by
      rw [clearOldLoop]
      simp only [h, if_true]
    rw [hres]
    refine ⟨?_, ?_, ?_⟩
    · simp only [List.length_cons]
      simp only [hlen] at ih1
      simp only [List.length_cons] at h
      rw [ih1]
      omega
    · simp only [List.cons_append]
      exact (ih2.cons _).trans hperm
    · intro a ha y hy
      have hyer : y ∈ (x :: xs).eraseIdx (minFrom x 0 1 xs).2 :=
        ih2.mem_iff.1 (List.mem_append.2 (Or.inr hy))
      rcases List.mem_cons.1 ha with ha | ha
      · have hyx : y ∈ x :: xs := hperm.mem_iff.1 (List.mem_cons.2 (Or.inr hyer))
        have hle : (minFrom x 0 1 xs).1 ≤ y := hmin y hyx
        have hne : (minFrom x 0 1 xs).1 ≠ y := fun e => hmnot (e ▸ hyer)
        exact ha ▸ lt_of_le_of_ne hle hne
      · exact ih3 a ha y hy
  | case3 x xs keep h =>
    have hres : clearOldLoop (x :: xs) keep = ([], x :: xs) := by
      rw [clearOldLoop]
      simp only [h, if_false]
    rw [hres]
    simp only [List.length_cons, List.length_nil, List.nil_append]
    refine ⟨?_, List.Perm.refl _, by simp⟩
    simp only [List.length_cons, Nat.lt_iff_add_one_le, not_lt] at h ⊢
    omega

theorem collectNames_map_some (names : List String) :
    collectNames (names.map some) = some names := by
  induction names with
  | nil => rfl
  | cons n rest ih => simp [collectNames, ih]

/-- C3: `prune(snapshot_root, keep_count)` is a no-op when the root does
not exist, is a plain file, or has fewer than 2 children; otherwise the
loop deletes the lexicographically smallest child while the count
exceeds `keep_count`, so of `n` distinct children exactly the
`n - keep_count` smallest are targeted for deletion and the
`keep_count` greatest remain: the deleted and remaining names partition
the children, there are `n - keep_count` deleted ones, and every
deleted name is lexicographically below every remaining one. -/
theorem c3_clear_old_prunes_smallest (names : List String) (keepNum : Int)
    (hnd : names.Nodup) (hk1 : 1 ≤ keepNum) (hk2 : keepNum < 2 ^ 31) :
    (∀ (b : Bool) (entries : List (Option String)),
        clear_old false b entries keepNum = some ([], []))
    ∧ (∀ entries : List (Option String),
        clear_old true true entries keepNum = some ([], []))
    ∧ (names.length < 2 → clear_old true false (names.map some) keepNum = some ([], names))
    ∧ ∃ del rem,
        clear_old true false (names.map some) keepNum = some (del, rem)
        ∧ del.length = names.length - keepNum.toNat
        ∧ List.Perm (del ++ rem) names
        ∧ ∀ x ∈ del, ∀ y ∈ rem, x < y := by
  have hu : usizeOfI32 keepNum = keepNum.toNat := by
    simp only [usizeOfI32]
    norm_num
    omega
  refine ⟨fun b entries => by simp [clear_old], fun entries => by simp [clear_old], ?_, ?_⟩
  · intro hlen
    simp [clear_old, collectNames_map_some, hlen]
  · by_cases hlen : names.length < 2
    · refine ⟨[], names, ?_, ?_, by simp, by simp⟩
      · simp [clear_old, collectNames_map_some, hlen]
      · simp only [List.length_nil]
        omega
    · obtain ⟨h1, h2, h3⟩ := clearOldLoop_spec names keepNum.toNat hnd
      refine ⟨(clearOldLoop names keepNum.toNat).1, (clearOldLoop names keepNum.toNat).2,
        ?_, h1, h2, h3⟩
      simp [clear_old, collectNames_map_some, hlen, hu]

/-- C3, witness: three children `b`, `a`, `c` with `keep_num = 1`; the
two smallest (`a` then `b`) are deleted and the greatest (`c`) remains. -/
theorem c3_witness :
    (∀ (b : Bool) (entries : List (Option String)),
        clear_old false b entries 1 = some ([], []))
    ∧ (∀ entries : List (Option String),
        clear_old true true entries 1 = some ([], []))
    ∧ ((["b", "a", "c"] : List String).length < 2 →
        clear_old true false (["b", "a", "c"].map some) 1 = some ([], ["b", "a", "c"]))
    ∧ ∃ del rem,
        clear_old true false (["b", "a", "c"].map some) 1 = some (del, rem)
        ∧ del.length = (["b", "a", "c"] : List String).length - (1 : Int).toNat
        ∧ List.Perm (del ++ rem) ["b", "a", "c"]
        ∧ ∀ x ∈ del, ∀ y ∈ rem, x < y :=
  c3_clear_old_prunes_smallest ["b", "a", "c"] 1 (by decide) (by decide) (by decide)

theorem collectNames_eq_none_of_mem (entries : List (Option String))
    (h : none ∈ entries) : collectNames entries = none := by
  induction entries with
  | nil => simp at h
  | cons e rest ih =>
    cases e with
    | none => rfl
    | some n =>
      have : none ∈ rest := by
        rcases List.mem_cons.1 h with h | h
        · exact absurd h.symm (by simp)
        · exact h
      simp [collectNames, ih this]

theorem collectNames_isSome_of_not_mem (entries : List (Option String))
    (h : none ∉ entries) : ∃ names, collectNames entries = some names := by
  induction entries with
  | nil => exact ⟨[], rfl⟩
  | cons e rest ih =>
    cases e with
    | none => exact absurd (List.mem_cons_self _ _) h
    | some n =>
      obtain ⟨names, hn⟩ := ih (fun hc => h (List.mem_cons_of_mem _ hc))
      exact ⟨n :: names, by simp [collectNames, hn]⟩

/-- C10: during a retention scan (the snapshot root opens and is a
directory), a failed read of any single directory entry makes
`clear_old` panic — the collect of the mapped iterator hits the
`panic!` arm (operation.rs:360-369), modelled as result `none` — instead
of returning normally or skipping the entry; a scan where every entry
reads returns normally (`some` result). -/
theorem c10_entry_read_failure_panics (entries : List (Option String)) (keepNum : Int) :
    (none ∈ entries → clear_old true false entries keepNum = none)
    ∧ (none ∉ entries → (clear_old true false entries keepNum).isSome = true) := by
  constructor
  · intro h
    simp [clear_old, collectNames_eq_none_of_mem entries h]
  · intro h
    obtain ⟨names, hn⟩ := collectNames_isSome_of_not_mem entries h
    by_cases hlen : names.length < 2 <;> simp [clear_old, hn, hlen]

/-- C10, witness: a scan with a failed second entry panics; the same
scan with both entries read returns normally. -/
theorem c10_witness :
    clear_old true false [some "a", none] 2 = none
    ∧ (clear_old true false [some "a", some "b"] 2).isSome = true :=
  ⟨(c10_entry_read_failure_panics [some "a", none] 2).1 (by decide),
   (c10_entry_read_failure_panics [some "a", some "b"] 2).2 (by decide)⟩

/-- C7: a target whose destination root cannot be opened makes
`copy_to_target` return the `NotFound` error before any copy attempt;
the performed event trace is empty, so zero files have been copied when
the error is returned. -/
theorem c7_missing_destination_root (re : RegexEng) (t : BackupTarget) (now : String)
    (src : FsNode) (dest : List String → Option Nat) (threads : Int)
    (h : dest t.targetPath = none) :
    copy_to_target re t now src dest threads = ([], .error .notFound) := by
  simp [copy_to_target, h]

/-- C7, witness: an entirely missing destination filesystem yields the
bare `NotFound` error with an empty trace, in parallel mode. -/
theorem c7_witness :
    copy_to_target reNone tC1 "T" (.file 1) (fun _ => none) 4 = ([], .error .notFound) :=
  c7_missing_destination_root reNone tC1 "T" (.file 1) (fun _ => none) 4 rfl

/-- C9, counterexample: invoking `backup` on a target selecting the
network backend panics via `unimplemented!()` (config.rs:63) — the call
aborts by unwinding and no error value is returned to the caller; the
claim says a reportable "unsupported" error value is returned rather
than an abort. -/
theorem c9_counterexample :
    BackupTarget.backup tC9 (.ok 0) = .panicked "not implemented"
    ∧ BackupTarget.backup tC9 (.ok 0) ≠ .err .unsupported
    ∧ BackupTarget.backup tC9 (.ok 0) ≠ .err .notFound
    ∧ ∀ n : Int, BackupTarget.backup tC9 (.ok 0) ≠ .ok n := by
  refine ⟨rfl, by decide, by decide, fun n => by simp [BackupTarget.backup, tC9]⟩

/-- C9, amended: invoking the backup operation on a target whose
`additional_options` select the network backend panics with
« not implemented » (aborting the run), rather than returning an error
value or a count to the caller. -/
theorem c9_amended_network_panics (t : BackupTarget) (localOutcome : RunOutcome)
    (url password : String) (h : t.additionalOptions = some (.network url password)) :
    BackupTarget.backup t localOutcome = .panicked "not implemented"
    ∧ (∀ k, BackupTarget.backup t localOutcome ≠ .err k)
    ∧ (∀ n : Int, BackupTarget.backup t localOutcome ≠ .ok n) := by
  refine ⟨by simp [BackupTarget.backup, h], ?_, ?_⟩
  · intro k
    simp [BackupTarget.backup, h]
  · intro n
    simp [BackupTarget.backup, h]

/-- C9, witness: the amended theorem applied to the repository's own
network target. -/
theorem c9_witness :
    BackupTarget.backup tC9 (.ok 0) = .panicked "not implemented"
    ∧ (∀ k, BackupTarget.backup tC9 (.ok 0) ≠ .err k)
    ∧ (∀ n : Int, BackupTarget.backup tC9 (.ok 0) ≠ .ok n) :=
  c9_amended_network_panics tC9 (.ok 0) "www.test.com" "test" rfl

theorem prunesBeforeCopies_append (pre copies : List Event)
    (hpre : ∀ e ∈ pre, e.isCopied = false) (hcop : ∀ e ∈ copies, e.isPruned = false) :
    prunesBeforeCopies (pre ++ copies) := by
  intro i j hi hj hpi hcj
  by_cases hip : i < pre.length
  · by_cases hjp : j < pre.length
    · exfalso
      have heq : (pre ++ copies).get ⟨j, hj⟩ = pre.get ⟨j, hjp⟩ := by
        simp [List.getElem_append_left hjp]
      rw [heq] at hcj
      have := hpre _ (List.get_mem pre j hjp)
      rw [List.get_eq_getElem] at this
      simp [this] at hcj
    · omega
  · exfalso
    have hip2 : pre.length ≤ i := by omega
    have hlt : i - pre.length < copies.length := by
      have := List.length_append pre copies ▸ hi
      omega
    have heq : (pre ++ copies).get ⟨i, hi⟩ = copies.get ⟨i - pre.length, hlt⟩ := by
      simp [List.getElem_append_right hip2]
    rw [heq] at hpi
    have := hcop _ (List.get_mem copies (i - pre.length) hlt)
    rw [List.get_eq_getElem] at this
    simp [this] at hpi

theorem prunesBeforeCopies_of_no_prunes (evs : List Event)
    (h : ∀ e ∈ evs, e.isPruned = false) : prunesBeforeCopies evs := by
  intro i j hi hj hpi hcj
  exfalso
  have := h _ (List.get_mem evs i hi)
  rw [List.get_eq_getElem] at this
  simp [this] at hpi

theorem copied_map_no_prunes (l : List (List String × List String)) :
    ∀ e ∈ l.map (fun p => Event.copied p.1 p.2), e.isPruned = false := by
  intro e he
  obtain ⟨p, _, rfl⟩ := List.mem_map.1 he
  rfl

/-- C6, counterexample: with `keep_num = 2` the serial run's trace is
the prune event followed by the copy — `clear_old` runs right after the
new snapshot directory is created (operation.rs:141-144) and BEFORE the
copy loop (operation.rs:146-191), so a file is copied strictly after
the pruning pass, contradicting the claim that pruning happens only
after all files have been processed. -/
theorem c6_counterexample :
    copy_to_events reNone tC6 "T1" srcC6 (fun _ => none)
      = [Event.pruned ["b", "a"] 2,
         Event.copied ["a", "f.txt"] ["b", "a", "T1", "f.txt"]] := by
  simp +decide [copy_to_events, copy_to_pairs, serialLoop, mkSChildren, destBaseOf,
    tC6, srcC6, WalkCtx.ofTarget, serialFD, dirNotIgnored, ignored, ignoredFilesLoop,
    ignoredFoldersLoop, hasRegexMarker, BackupTarget.checkTimestamp, reNone]

/-- C6, amended: for every target the retention pruning pass, when it
happens at all, is performed BEFORE the run's copy work, immediately
after the new snapshot directory is created: in both the serial and the
(successful) parallel trace every prune event strictly precedes every
copy event, and no prune ever follows a copy. -/
theorem c6_amended_prune_before_copies (re : RegexEng) (t : BackupTarget) (now : String)
    (src : FsNode) (dest : List String → Option Nat) :
    prunesBeforeCopies (copy_to_events re t now src dest)
    ∧ ∀ evs, threaded_copy_to re t now src dest = .ok evs → prunesBeforeCopies evs := by
  constructor
  · cases src with
    | file m =>
      exact prunesBeforeCopies_of_no_prunes _ (copied_map_no_prunes _)
    | dir cs =>
      apply prunesBeforeCopies_append
      · intro e he
        by_cases hk : t.keepNum > 1 <;> simp [hk] at he
        simp [he, Event.isCopied]
      · exact copied_map_no_prunes _
  · intro evs hevs
    cases src with
    | file m =>
      have hevs2 : evs = (threaded_pairs re t now (.file m) dest).map
          (fun p => Event.copied p.1 p.2) := by
        simpa [threaded_copy_to] using hevs.symm
      rw [hevs2]
      exact prunesBeforeCopies_of_no_prunes _ (copied_map_no_prunes _)
    | dir cs =>
      by_cases hroot : (dest t.targetPath).isNone
      · simp [threaded_copy_to, hroot] at hevs
      · have hevs2 : evs = (if t.keepNum > 1 then
            [Event.pruned (t.targetPath ++ [t.path.getLastD ""]) t.keepNum] else [])
            ++ (threaded_pairs re t now (.dir cs) dest).map (fun p => Event.copied p.1 p.2) := by
          rw [threaded_copy_to] at hevs
          simp only [hroot, Bool.false_eq_true, if_false, Except.ok.injEq] at hevs
          exact hevs.symm
        rw [hevs2]
        apply prunesBeforeCopies_append
        · intro e he
          by_cases hk : t.keepNum > 1 <;> simp [hk] at he
          simp [he, Event.isCopied]
        · exact copied_map_no_prunes _

/-- C6, witness: the amended ordering property at the concrete
`keep_num = 2` run of the counterexample. -/
theorem c6_witness :
    prunesBeforeCopies (copy_to_events reNone tC6 "T1" srcC6 (fun _ => none))
    ∧ ∀ evs, threaded_copy_to reNone tC6 "T1" srcC6 (fun _ => none) = .ok evs →
        prunesBeforeCopies evs :=
  c6_amended_prune_before_copies reNone tC6 "T1" srcC6 (fun _ => none)

theorem serialFD_eq_parallelFD (C : WalkCtx) (h : C.check = true) :
    serialFD C = parallelFD C := by
  funext rel dst m
  by_cases hig : ignored C.re (C.base ++ rel) true C.ignoreFiles C.ignoreFolders
  · simp [serialFD, parallelFD, h, hig]
  · simp only [serialFD, parallelFD, h, hig, Bool.false_eq_true, if_false, if_true]

/-- C5, counterexample: for the same target and the same source tree
snapshot, the parallel path copies the ignored file `skip.log` while the
serial path copies nothing, so the two paths do not produce the same
final set of (source, destination) pairs (the pair is written by the
parallel path only). -/
theorem c5_counterexample :
    threaded_pairs reNone tC5 "T" srcC5 destC5
      = [(["a", "skip.log"], ["b", "a", "skip.log"])]
    ∧ copy_to_pairs reNone tC5 "T" srcC5 destC5 = []
    ∧ (["a", "skip.log"], ["b", "a", "skip.log"]) ∈ threaded_pairs reNone tC5 "T" srcC5 destC5
    ∧ (["a", "skip.log"], ["b", "a", "skip.log"]) ∉ copy_to_pairs reNone tC5 "T" srcC5 destC5 := by
  have hpar : threaded_pairs reNone tC5 "T" srcC5 destC5
      = [(["a", "skip.log"], ["b", "a", "skip.log"])] := by
    simp +decide [threaded_pairs, parallelLoop, mkPChildren, destBaseOf, tC5, srcC5, destC5,
      WalkCtx.ofTarget, parallelFD, dirNotIgnored, ignored, ignoredFilesLoop,
      ignoredFoldersLoop, hasRegexMarker, BackupTarget.checkTimestamp, reNone]
  have hser : copy_to_pairs reNone tC5 "T" srcC5 destC5 = [] := by
    simp +decide [copy_to_pairs, serialLoop, mkSChildren, destBaseOf, tC5, srcC5, destC5,
      WalkCtx.ofTarget, serialFD, dirNotIgnored, ignored, ignoredFilesLoop,
      ignoredFoldersLoop, hasRegexMarker, BackupTarget.checkTimestamp, reNone]
  refine ⟨hpar, hser, ?_, ?_⟩
  · simp [hpar]
  · simp [hser]

/-- C5, amended: for every target whose source is a directory, whose
destination root exists, and for which timestamp checking is in effect
(`keep_count == 1 && !always_copy`), the parallel path and the serial
path produce the same final set of (source file, destination file)
pairs: the pair lists are permutations of each other, and a pair is
written by one path iff it is written by the other. -/
theorem c5_amended_serial_parallel_agree (re : RegexEng) (t : BackupTarget) (now : String)
    (cs : List (String × FsNode)) (dest : List String → Option Nat)
    (hk : t.keepNum = 1) (ha : t.alwaysCopy = false)
    (hroot : (dest t.targetPath).isSome = true) :
    List.Perm (copy_to_pairs re t now (.dir cs) dest) (threaded_pairs re t now (.dir cs) dest)
    ∧ ∀ p, p ∈ copy_to_pairs re t now (.dir cs) dest
        ↔ p ∈ threaded_pairs re t now (.dir cs) dest := by
  have hchk : (WalkCtx.ofTarget re t dest).check = true := by
    simp [WalkCtx.ofTarget, BackupTarget.checkTimestamp, hk, ha]
  have hfd := serialFD_eq_parallelFD (WalkCtx.ofTarget re t dest) hchk
  have hperm : List.Perm (copy_to_pairs re t now (.dir cs) dest)
      (threaded_pairs re t now (.dir cs) dest) := by
    refine (copy_to_pairs_dir_perm re t now dest cs).trans ?_
    rw [hfd]
    exact (threaded_pairs_dir_perm re t now dest cs hroot).symm
  exact ⟨hperm, fun p => hperm.mem_iff⟩

/-- C5, witness: the amended equivalence applied to a one-file
directory source with an existing destination root. -/
theorem c5_witness :
    List.Perm (copy_to_pairs reNone tC5w "T" (.dir [("x.txt", .file 1)]) destC5)
      (threaded_pairs reNone tC5w "T" (.dir [("x.txt", .file 1)]) destC5)
    ∧ ∀ p, p ∈ copy_to_pairs reNone tC5w "T" (.dir [("x.txt", .file 1)]) destC5
        ↔ p ∈ threaded_pairs reNone tC5w "T" (.dir [("x.txt", .file 1)]) destC5 :=
  c5_amended_serial_parallel_agree reNone tC5w "T" [("x.txt", .file 1)] destC5
    rfl rfl (by decide)

theorem workerLoop_append_terminate (ok : List String → List String → Bool)
    (p : List Command) (h : Command.terminate ∉ p) :
    workerLoop ok (p ++ [Command.terminate]) = p.countP (okCommand ok) := by
  induction p with
  | nil => simp [workerLoop]
  | cons c rest ih =>
    cases c with
    | terminate => exact absurd (List.mem_cons_self _ _) h
    | copy s d =>
      have hrest : Command.terminate ∉ rest := fun hc => h (List.mem_cons_of_mem _ hc)
      simp [workerLoop, List.countP_cons, okCommand, ih hrest]
      omega

theorem joinSum_eq_sum (l : List Nat) : joinSum l = l.sum := by
  have hgen : ∀ (l : List Nat) (a : Nat), l.foldl (fun n c => n + c) a = a + l.sum := by
    intro l
    induction l with
    | nil => intro a; simp
    | cons x rest ih => intro a; simp [List.foldl_cons, ih, List.sum_cons]; omega
  simpa [joinSum] using hgen l 0

/-- C4: in a parallel run over a directory source (destination root
present), the producer's command sequence is all eligible `Copy`
commands followed by exactly `num_threads - 1` `Terminate` commands —
that count of `Terminate`s and no other; and for every schedule that
hands each worker a terminate-free slice of the copy commands (one
`Terminate` each, the slices jointly a permutation of the copy
commands), the value produced by the join loop — the producer's counter
starting at zero plus each worker's local counter — is exactly the
number of copy commands whose `create_dir_all`/`copy` succeed. -/
theorem c4_producer_terminates_and_sum (re : RegexEng) (t : BackupTarget) (now : String)
    (cs : List (String × FsNode)) (dest : List String → Option Nat) (numThreads : Int)
    (ok : List String → List String → Bool) (parts : List (List Command))
    (hroot : (dest t.targetPath).isSome = true)
    (hn : 2 ≤ numThreads)
    (hlen : parts.length = (numThreads - 1).toNat)
    (hterm : ∀ p ∈ parts, Command.terminate ∉ p)
    (hperm : List.Perm parts.flatten
      ((threaded_pairs re t now (.dir cs) dest).map (fun q => Command.copy q.1 q.2))) :
    threaded_commands re t now (.dir cs) dest numThreads
      = (threaded_pairs re t now (.dir cs) dest).map (fun q => Command.copy q.1 q.2)
        ++ List.replicate (numThreads - 1).toNat Command.terminate
    ∧ (threaded_commands re t now (.dir cs) dest numThreads).countP Command.isTerminate
        = (numThreads - 1).toNat
    ∧ joinSum (parts.map (fun p => workerLoop ok (p ++ [Command.terminate])))
        = ((threaded_pairs re t now (.dir cs) dest).map
            (fun q => Command.copy q.1 q.2)).countP (okCommand ok) := by
  have hroot2 : (dest t.targetPath).isNone = false := by
    cases hd : dest t.targetPath with
    | none => rw [hd] at hroot; simp at hroot
    | some _ => simp
  have hcmds : threaded_commands re t now (.dir cs) dest numThreads
      = (threaded_pairs re t now (.dir cs) dest).map (fun q => Command.copy q.1 q.2)
        ++ List.replicate (numThreads - 1).toNat Command.terminate := by
    simp [threaded_commands, hroot2]
  refine ⟨hcmds, ?_, ?_⟩
  · rw [hcmds, List.countP_append]
    have hzero : ((threaded_pairs re t now (.dir cs) dest).map
        (fun q => Command.copy q.1 q.2)).countP Command.isTerminate = 0 := by
      rw [List.countP_eq_zero]
      intro c hc
      obtain ⟨q, _, rfl⟩ := List.mem_map.1 hc
      simp [Command.isTerminate]
    rw [hzero, List.countP_replicate]
    simp [Command.isTerminate]
  · have hmap : parts.map (fun p => workerLoop ok (p ++ [Command.terminate]))
        = parts.map (fun p => p.countP (okCommand ok)) :=
      List.map_congr_left (fun p hp => workerLoop_append_terminate ok p (hterm p hp))
    rw [joinSum_eq_sum, hmap, ← List.countP_flatten]
    exact hperm.countP_eq _

/-- C4, witness: three threads (two workers), each worker consuming one
of the two copy commands; the command queue ends in exactly two
terminates and the joined counters sum to the number of successful
copies. -/
theorem c4_witness :
    threaded_commands reNone tC4 "T" (.dir [("x.txt", .file 1), ("y.txt", .file 2)]) destC5 3
      = ((threaded_pairs reNone tC4 "T" (.dir [("x.txt", .file 1), ("y.txt", .file 2)]) destC5).map
          (fun q => Command.copy q.1 q.2))
        ++ List.replicate ((3 : Int) - 1).toNat Command.terminate
    ∧ (threaded_commands reNone tC4 "T"
          (.dir [("x.txt", .file 1), ("y.txt", .file 2)]) destC5 3).countP Command.isTerminate
        = ((3 : Int) - 1).toNat
    ∧ joinSum (([[Command.copy ["a", "y.txt"] ["b", "a", "y.txt"]],
          [Command.copy ["a", "x.txt"] ["b", "a", "x.txt"]]].map
          (fun p => workerLoop (fun _ _ => true) (p ++ [Command.terminate]))))
        = ((threaded_pairs reNone tC4 "T"
            (.dir [("x.txt", .file 1), ("y.txt", .file 2)]) destC5).map
            (fun q => Command.copy q.1 q.2)).countP (okCommand (fun _ _ => true)) :=
  c4_producer_terminates_and_sum reNone tC4 "T" [("x.txt", .file 1), ("y.txt", .file 2)]
    destC5 3 (fun _ _ => true)
    [[Command.copy ["a", "y.txt"] ["b", "a", "y.txt"]],
     [Command.copy ["a", "x.txt"] ["b", "a", "x.txt"]]]
    (by decide) (by decide) (by decide) (by decide)
    (by
      have heval : threaded_pairs reNone tC4 "T"
          (.dir [("x.txt", .file 1), ("y.txt", .file 2)]) destC5
          = [(["a", "y.txt"], ["b", "a", "y.txt"]), (["a", "x.txt"], ["b", "a", "x.txt"])] := by
        simp +decide [threaded_pairs, parallelLoop, mkPChildren, destBaseOf, tC4, destC5,
          WalkCtx.ofTarget, parallelFD, dirNotIgnored, ignored, ignoredFilesLoop,
          ignoredFoldersLoop, hasRegexMarker, BackupTarget.checkTimestamp, reNone]
      rw [heval]
      simp only [List.flatten, List.map_cons, List.map_nil, List.append_nil,
        List.singleton_append]
      exact List.Perm.rfl)
